import Mathlib

/-!
Verification of the ODrive touch-robot binary protocol codec
(`Firmware/communication/tcpacket.h`).

The C packet type is a union of a packed 12-byte header struct with a raw
byte array `uint8_t data[128]`; every field of the header is a view of the
corresponding bytes (little-endian for the multi-byte `tc_seal` and
`tc_crc`).  We therefore embed a packet as a byte-addressed memory
`Nat → Nat` (each cell holding one byte; stores mask with `% 256`), and
each inline function of the header as a Lean function on that memory.
Floats are carried as their raw 32-bit IEEE-754 bit patterns (a `Nat`
below `2^32`): the codec never computes with float values, it only moves
their four bytes, so this is exact ("bit-for-bit").
-/

/-- `TC_HDRSIZE`: size of the packed header struct. -/
def TC_HDRSIZE : Nat := 12

/-- `TC_MAXLEN`: maximum packet size, the size of the union's byte array. -/
def TC_MAXLEN : Nat := 128

/-- `TC_SEAL`: the seal constant, stored little-endian at offset 0. -/
def TC_SEAL : Nat := 0xA2BB55A1

/-- `CRC16_POLY`: the reflected CCITT CRC-16 polynomial. -/
def CRC16_POLY : Nat := 0x8408

/-- A packet buffer: byte-addressed memory.  The packet occupies addresses
`0 ..< TC_MAXLEN`; addresses beyond that model the caller's adjacent
memory (the C code can write there when it overruns the union). -/
def Packet : Type := Nat → Nat

/-- Store one byte (`uint8_t` store: masks with `% 256`). -/
def setByte (p : Packet) (off v : Nat) : Packet :=
  fun i => if i = off then v % 256 else p i

/-- Load one byte (`uint8_t` read). -/
def getByte (p : Packet) (off : Nat) : Nat :=
  p off % 256

/-- Store the `n` low-order bytes of `v` at `off`, little-endian: the
effect of a C store of an `n`-byte scalar on a little-endian target. -/
def storeLE : Nat → Packet → Nat → Nat → Packet
  | 0, p, _, _ => p
  | n + 1, p, off, v => storeLE n (setByte p off v) (off + 1) (v / 256)

/-- Load an `n`-byte little-endian scalar from `off`. -/
def loadLE : Nat → Packet → Nat → Nat
  | 0, _, _ => 0
  | n + 1, p, off => getByte p off + 256 * loadLE n p (off + 1)

/-- The `tc_cmd` field: byte 6 of the union. -/
def tc_cmd (p : Packet) : Nat := getByte p 6

/-- The `tc_seq` field: byte 7 of the union. -/
def tc_seq (p : Packet) : Nat := getByte p 7

/-- The `tc_sts` field: byte 8 of the union. -/
def tc_sts (p : Packet) : Nat := getByte p 8

/-- The `tc_fparams` field: byte 9 of the union. -/
def tc_fparams (p : Packet) : Nat := getByte p 9

/-- The `tc_iparams` field: byte 10 of the union. -/
def tc_iparams (p : Packet) : Nat := getByte p 10

/-- The `tc_sparams` field: byte 11 of the union. -/
def tc_sparams (p : Packet) : Nat := getByte p 11

/-- The `tc_crc` field: 16-bit little-endian at offset 4. -/
def tc_crc (p : Packet) : Nat := loadLE 2 p 4

/-- The `tc_seal` field: 32-bit little-endian at offset 0. -/
def tc_seal (p : Packet) : Nat := loadLE 4 p 0

/-- `tcpkt_init`: `memset(pkt,0,sizeof(tcpacket_t))` zeroes the 128 bytes
of the union, then `pkt->packet.tc_seal = TC_SEAL` stores the seal word
little-endian at offset 0. -/
def tcpkt_init (p : Packet) : Packet :=
  storeLE 4 (fun i => if i < TC_MAXLEN then 0 else p i) 0 TC_SEAL

/-- `tcpkt_size`: `TC_HDRSIZE + tc_fparams*sizeof(float) +
tc_iparams*sizeof(int32_t) + tc_sparams`. -/
def tcpkt_size (p : Packet) : Nat :=
  TC_HDRSIZE + tc_fparams p * 4 + tc_iparams p * 4 + tc_sparams p

/-- `tcpkt_addfloat`: stores the 4 bytes of `v` (an IEEE-754 binary32 bit
pattern, little-endian on the target) at `TC_HDRSIZE + tc_fparams*4`,
then increments `tc_fparams` (a `uint8_t`, hence the mask in `setByte`).
The C code performs no bounds or ordering check. -/
def tcpkt_addfloat (p : Packet) (v : Nat) : Packet :=
  let q := storeLE 4 p (TC_HDRSIZE + tc_fparams p * 4) v
  setByte q 9 (tc_fparams q + 1)

/-- `tcpkt_addint`: stores the 4 bytes of the two's-complement encoding of
`v` at `TC_HDRSIZE + tc_fparams*4 + tc_iparams*4`, then increments
`tc_iparams`.  No bounds or ordering check. -/
def tcpkt_addint (p : Packet) (v : Int) : Packet :=
  let q := storeLE 4 p (TC_HDRSIZE + tc_fparams p * 4 + tc_iparams p * 4)
            (Int.toNat (v.emod 4294967296))
  setByte q 10 (tc_iparams q + 1)

/-- Store the bytes of a list at consecutive addresses (the body of a
`strcpy` whose source holds exactly these bytes before its terminator). -/
def storeBytes : Packet → Nat → List Nat → Packet
  | p, _, [] => p
  | p, off, b :: bs => storeBytes (setByte p off b) (off + 1) bs

/-- `tcpkt_addstring`: `strcpy` copies the source's bytes up to and
including its first NUL to `TC_HDRSIZE + tc_fparams*4 + tc_iparams*4`,
then `tc_sparams = strlen(str)+1`.  The argument is the source memory as
a byte list; `strcpy`/`strlen` only see it up to its first zero byte. -/
def tcpkt_addstring (p : Packet) (s : List Nat) : Packet :=
  let cs := s.takeWhile (fun b => b % 256 ≠ 0)
  let off := TC_HDRSIZE + tc_fparams p * 4 + tc_iparams p * 4
  let q := setByte (storeBytes p off cs) (off + cs.length) 0
  setByte q 11 (cs.length + 1)

/-- `tcpkt_getfloat`: loads 4 bytes from `TC_HDRSIZE + idx*4` and returns
them as a binary32 bit pattern.  No range check on `idx`. -/
def tcpkt_getfloat (p : Packet) (idx : Nat) : Nat :=
  loadLE 4 p (TC_HDRSIZE + idx * 4)

/-- `tcpkt_getint`: loads 4 bytes from `TC_HDRSIZE + tc_fparams*4 + idx*4`
and reinterprets them as a two's-complement `int32_t`.  No range check. -/
def tcpkt_getint (p : Packet) (idx : Nat) : Int :=
  let u := loadLE 4 p (TC_HDRSIZE + tc_fparams p * 4 + idx * 4)
  if u < 2147483648 then (u : Int) else (u : Int) - 4294967296

/-- Read a C string (bytes up to the first NUL) starting at `off`; the
fuel bounds the scan, ample for any in-packet string. -/
def readCStr : Nat → Packet → Nat → List Nat
  | 0, _, _ => []
  | n + 1, p, off =>
    if getByte p off = 0 then [] else getByte p off :: readCStr n p (off + 1)

/-- `tcpkt_getstring`: returns the C string found at
`TC_HDRSIZE + tc_fparams*4 + tc_iparams*4`. -/
def tcpkt_getstring (p : Packet) : List Nat :=
  readCStr TC_MAXLEN p (TC_HDRSIZE + tc_fparams p * 4 + tc_iparams p * 4)

/-- One iteration of the inner loop of `crc16`: `if ((crc & 0x0001) ^
(data & 0x0001)) crc = (crc >> 1) ^ CRC16_POLY; else crc >>= 1;`. -/
def crcBit (crc data : Nat) : Nat :=
  if (crc &&& 1) ^^^ (data &&& 1) ≠ 0 then (crc >>> 1) ^^^ CRC16_POLY
  else crc >>> 1

/-- The inner `for` loop of `crc16`: `n` iterations, shifting `data` right
one bit each time. -/
def crcBits (crc data : Nat) : Nat → Nat
  | 0 => crc
  | n + 1 => crcBits (crcBit crc data) (data >>> 1) n

/-- The outer `do`/`while` loop of `crc16` over the input bytes; each byte
is masked as in `data = (unsigned int)0xff & *data_p++`. -/
def crc16_loop (crc : Nat) (data : List Nat) : Nat :=
  data.foldl (fun c b => crcBits c (0xff &&& b) 8) crc

/-- `crc16`: register starts at `0xffff`; on empty input returns `~crc`
truncated to `unsigned short`.  Otherwise runs the loop, complements the
32-bit `unsigned int` register, swaps bytes with
`crc = (crc << 8) | (data >> 8 & 0xff)` (32-bit arithmetic), and truncates
to the `unsigned short` return type. -/
def crc16 (data : List Nat) : Nat :=
  if data.length = 0 then (0xffffffff ^^^ 0xffff) % 65536
  else
    let c := crc16_loop 0xffff data
    let c := 0xffffffff ^^^ c
    (((c <<< 8) % 4294967296) ||| ((c >>> 8) &&& 0xff)) % 65536

/-!  The spec-side CRC, for the refinement claim C1.  It follows the
claim's words: a 16-bit register starting at `0xFFFF`; each byte's 8 bits
processed LSB-first, the register replaced by `(register >> 1) XOR 0x8408`
when the register LSB XOR the current bit is 1 and by `register >> 1`
otherwise; the register complemented (as a 16-bit register) after all
bytes; and the high and low bytes of the 16-bit result swapped. -/

/-- Spec C1, one bit step on the 16-bit register. -/
def specCrcStep (reg bit : Nat) : Nat :=
  if (reg % 2) ^^^ bit = 1 then (reg / 2) ^^^ 0x8408 else reg / 2

/-- Spec C1, the 8 bits of a byte LSB-first. -/
def specCrcByte (reg b : Nat) : Nat → Nat
  | 0 => reg
  | n + 1 => specCrcByte (specCrcStep reg (b % 2)) (b / 2) n

/-- Spec C1, the whole engine: process all bytes, complement the 16-bit
register, swap its high and low bytes. -/
def crc16_spec (data : List Nat) : Nat :=
  let reg := data.foldl (fun r b => specCrcByte r (b % 256) 8) 0xffff
  let reg := reg ^^^ 0xffff
  ((reg <<< 8) ||| ((reg >>> 8) &&& 0xff)) &&& 0xffff

/-- Claim C9: the CRC engine applied to the empty input returns `0x0000`
(the `return (~crc)` branch, truncated to `unsigned short`). -/
theorem C9_crc16_empty : crc16 [] = 0 := by decide

/-- Claim C8: for every packet state, `tcpkt_size` returns exactly
`12 + 4*nfloat + 4*nint + nstr`. -/
theorem C8_size_formula (p : Packet) :
    tcpkt_size p = 12 + 4 * tc_fparams p + 4 * tc_iparams p + tc_sparams p := by
  unfold tcpkt_size TC_HDRSIZE
  ring

/-! ### Memory-model lemmas -/

theorem setByte_same (p : Packet) (off v : Nat) : setByte p off v off = v % 256 := by
  simp [setByte]

theorem setByte_other (p : Packet) (off v i : Nat) (h : i ≠ off) :
    setByte p off v i = p i := by
  simp [setByte, h]

theorem storeLE_outside : ∀ (n : Nat) (p : Packet) (off v i : Nat),
    i < off ∨ off + n ≤ i → storeLE n p off v i = p i := by
  intro n
  induction n with
  | zero => intro p off v i _; rfl
  | succ m ih =>
    intro p off v i h
    show storeLE m (setByte p off v) (off + 1) (v / 256) i = p i
    rw [ih (setByte p off v) (off + 1) (v / 256) i (by omega)]
    exact setByte_other p off v i (by omega)

theorem storeBytes_outside : ∀ (bs : List Nat) (p : Packet) (off i : Nat),
    i < off ∨ off + bs.length ≤ i → storeBytes p off bs i = p i := by
  intro bs
  induction bs with
  | nil => intro p off i _; rfl
  | cons b tl ih =>
    intro p off i h
    show storeBytes (setByte p off b) (off + 1) tl i = p i
    rw [ih (setByte p off b) (off + 1) i (by simp at h ⊢; omega)]
    exact setByte_other p off b i (by simp at h; omega)

theorem loadLE_congr : ∀ (n : Nat) (p q : Packet) (off : Nat),
    (∀ i, off ≤ i → i < off + n → p i = q i) →
    loadLE n p off = loadLE n q off := by
  intro n
  induction n with
  | zero => intro p q off _; rfl
  | succ m ih =>
    intro p q off h
    show getByte p off + 256 * loadLE m p (off + 1) =
      getByte q off + 256 * loadLE m q (off + 1)
    rw [ih p q (off + 1) (fun i h1 h2 => h i (by omega) (by omega))]
    unfold getByte
    rw [h off (by omega) (by omega)]

theorem loadLE_storeLE : ∀ (n : Nat) (p : Packet) (off v : Nat),
    loadLE n (storeLE n p off v) off = v % 256 ^ n := by
  intro n
  induction n with
  | zero => intro p off v; simp [loadLE, pow_zero, Nat.mod_one]
  | succ m ih =>
    intro p off v
    show loadLE (m + 1) (storeLE m (setByte p off v) (off + 1) (v / 256)) off
      = v % 256 ^ (m + 1)
    show getByte (storeLE m (setByte p off v) (off + 1) (v / 256)) off
      + 256 * loadLE m (storeLE m (setByte p off v) (off + 1) (v / 256)) (off + 1)
      = v % 256 ^ (m + 1)
    rw [ih (setByte p off v) (off + 1) (v / 256)]
    unfold getByte
    rw [storeLE_outside m (setByte p off v) (off + 1) (v / 256) off (by omega)]
    rw [setByte_same, Nat.mod_mod_of_dvd v dvd_rfl, pow_succ', Nat.mod_mul]

theorem getByte_lt (p : Packet) (off : Nat) : getByte p off < 256 :=
  Nat.mod_lt _ (by omega)

theorem loadLE_lt : ∀ (n : Nat) (p : Packet) (off : Nat),
    loadLE n p off < 256 ^ n := by
  intro n
  induction n with
  | zero => intro p off; simp [loadLE]
  | succ m ih =>
    intro p off
    show getByte p off + 256 * loadLE m p (off + 1) < 256 ^ (m + 1)
    have h1 := getByte_lt p off
    have h2 := ih p (off + 1)
    have : 256 ^ (m + 1) = 256 * 256 ^ m := by rw [pow_succ']
    omega

/-! ### Frame and read-back lemmas for the append operations -/

theorem addfloat_frame (p : Packet) (v i : Nat) (h9 : i ≠ 9)
    (hout : i < 12 + 4 * tc_fparams p ∨ 16 + 4 * tc_fparams p ≤ i) :
    tcpkt_addfloat p v i = p i := by
  show setByte (storeLE 4 p (TC_HDRSIZE + tc_fparams p * 4) v) 9 _ i = p i
  rw [setByte_other _ _ _ _ h9]
  exact storeLE_outside 4 p (TC_HDRSIZE + tc_fparams p * 4) v i
    (by unfold TC_HDRSIZE; omega)

theorem addfloat_fparams (p : Packet) (v : Nat) (h : tc_fparams p + 1 < 256) :
    tc_fparams (tcpkt_addfloat p v) = tc_fparams p + 1 := by
  have hfr : tc_fparams (storeLE 4 p (TC_HDRSIZE + tc_fparams p * 4) v)
      = tc_fparams p :=
    congrArg (fun x => x % 256)
      (storeLE_outside 4 p (TC_HDRSIZE + tc_fparams p * 4) v 9
        (by unfold TC_HDRSIZE; omega))
  show getByte (setByte (storeLE 4 p (TC_HDRSIZE + tc_fparams p * 4) v) 9
    (tc_fparams (storeLE 4 p (TC_HDRSIZE + tc_fparams p * 4) v) + 1)) 9
    = tc_fparams p + 1
  unfold getByte
  rw [setByte_same, hfr]
  omega

theorem addfloat_load (p : Packet) (v : Nat) :
    loadLE 4 (tcpkt_addfloat p v) (12 + 4 * tc_fparams p) = v % 4294967296 := by
  show loadLE 4 (setByte (storeLE 4 p (TC_HDRSIZE + tc_fparams p * 4) v) 9 _)
    (12 + 4 * tc_fparams p) = v % 4294967296
  rw [loadLE_congr 4 _ (storeLE 4 p (TC_HDRSIZE + tc_fparams p * 4) v)
    (12 + 4 * tc_fparams p)
    (fun i h1 h2 => setByte_other _ _ _ _ (by omega))]
  have : TC_HDRSIZE + tc_fparams p * 4 = 12 + 4 * tc_fparams p := by
    unfold TC_HDRSIZE; ring
  rw [← this, loadLE_storeLE]
  norm_num

theorem addint_frame (p : Packet) (v : Int) (i : Nat) (h10 : i ≠ 10)
    (hout : i < 12 + 4 * tc_fparams p + 4 * tc_iparams p ∨
      16 + 4 * tc_fparams p + 4 * tc_iparams p ≤ i) :
    tcpkt_addint p v i = p i := by
  show setByte (storeLE 4 p (TC_HDRSIZE + tc_fparams p * 4 + tc_iparams p * 4)
    (Int.toNat (v.emod 4294967296))) 10 _ i = p i
  rw [setByte_other _ _ _ _ h10]
  exact storeLE_outside 4 p _ _ i (by unfold TC_HDRSIZE; omega)

theorem addint_iparams (p : Packet) (v : Int) (h : tc_iparams p + 1 < 256) :
    tc_iparams (tcpkt_addint p v) = tc_iparams p + 1 := by
  have hfr : tc_iparams (storeLE 4 p (TC_HDRSIZE + tc_fparams p * 4 + tc_iparams p * 4)
      (Int.toNat (v.emod 4294967296))) = tc_iparams p :=
    congrArg (fun x => x % 256)
      (storeLE_outside 4 p (TC_HDRSIZE + tc_fparams p * 4 + tc_iparams p * 4)
        (Int.toNat (v.emod 4294967296)) 10 (by unfold TC_HDRSIZE; omega))
  show getByte (setByte (storeLE 4 p (TC_HDRSIZE + tc_fparams p * 4 + tc_iparams p * 4)
    (Int.toNat (v.emod 4294967296))) 10
    (tc_iparams (storeLE 4 p (TC_HDRSIZE + tc_fparams p * 4 + tc_iparams p * 4)
      (Int.toNat (v.emod 4294967296))) + 1)) 10 = tc_iparams p + 1
  unfold getByte
  rw [setByte_same, hfr]
  omega

theorem addint_load (p : Packet) (v : Int) :
    loadLE 4 (tcpkt_addint p v) (12 + 4 * tc_fparams p + 4 * tc_iparams p)
      = Int.toNat (v.emod 4294967296) % 4294967296 := by
  show loadLE 4 (setByte (storeLE 4 p (TC_HDRSIZE + tc_fparams p * 4 + tc_iparams p * 4)
    (Int.toNat (v.emod 4294967296))) 10 _)
    (12 + 4 * tc_fparams p + 4 * tc_iparams p) = _
  rw [loadLE_congr 4 _ (storeLE 4 p (TC_HDRSIZE + tc_fparams p * 4 + tc_iparams p * 4)
      (Int.toNat (v.emod 4294967296)))
    (12 + 4 * tc_fparams p + 4 * tc_iparams p)
    (fun i h1 h2 => setByte_other _ _ _ _ (by omega))]
  have : TC_HDRSIZE + tc_fparams p * 4 + tc_iparams p * 4
      = 12 + 4 * tc_fparams p + 4 * tc_iparams p := by
    unfold TC_HDRSIZE; ring
  rw [← this, loadLE_storeLE]
  norm_num

/-- Claim C7: after `tcpkt_init` on any buffer, the first four bytes are
`0xA1, 0x55, 0xBB, 0xA2` (the seal `0xA2BB55A1` stored little-endian),
and the crc field, sts byte and the three counts are all zero. -/
theorem C7_init (p : Packet) :
    tcpkt_init p 0 = 0xA1 ∧ tcpkt_init p 1 = 0x55 ∧
    tcpkt_init p 2 = 0xBB ∧ tcpkt_init p 3 = 0xA2 ∧
    tc_seal (tcpkt_init p) = 0xA2BB55A1 ∧
    tc_crc (tcpkt_init p) = 0 ∧ tc_sts (tcpkt_init p) = 0 ∧
    tc_fparams (tcpkt_init p) = 0 ∧ tc_iparams (tcpkt_init p) = 0 ∧
    tc_sparams (tcpkt_init p) = 0 := by
  unfold tcpkt_init tc_seal tc_crc tc_sts tc_fparams tc_iparams tc_sparams
  unfold TC_SEAL TC_MAXLEN
  norm_num [storeLE, setByte, getByte, loadLE]

theorem tcpkt_init_apply (p : Packet) (i : Nat) :
    tcpkt_init p i =
      if i = 0 then 0xA1 else if i = 1 then 0x55 else if i = 2 then 0xBB
      else if i = 3 then 0xA2 else if i < 128 then 0 else p i := by
  unfold tcpkt_init TC_SEAL TC_MAXLEN
  simp only [storeLE, setByte]
  norm_num
  split_ifs <;> first | rfl | omega | norm_num

theorem tc_fparams_init (p : Packet) : tc_fparams (tcpkt_init p) = 0 := by
  simp [tc_fparams, getByte, tcpkt_init_apply]

theorem tc_iparams_init (p : Packet) : tc_iparams (tcpkt_init p) = 0 := by
  simp [tc_iparams, getByte, tcpkt_init_apply]

theorem tc_sparams_init (p : Packet) : tc_sparams (tcpkt_init p) = 0 := by
  simp [tc_sparams, getByte, tcpkt_init_apply]

/-- Claim C10: under the size bound of the claim, `tcpkt_addfloat` changes
only its 4-byte slot and the `tc_fparams` byte (incremented by exactly 1),
and `tcpkt_addint` changes only its slot and the `tc_iparams` byte: every
other address of the memory — seal, crc, cmd, seq, sts, the other counts,
all earlier parameter bytes, and everything else — is untouched. -/
theorem C10_add_frame (p : Packet) (v : Nat) (w : Int)
    (hf : 12 + 4 * (tc_fparams p + 1) + 4 * tc_iparams p + tc_sparams p ≤ 128)
    (hi : 12 + 4 * tc_fparams p + 4 * (tc_iparams p + 1) + tc_sparams p ≤ 128) :
    tc_fparams (tcpkt_addfloat p v) = tc_fparams p + 1 ∧
    (∀ i, i ≠ 9 → i < 12 + 4 * tc_fparams p ∨ 16 + 4 * tc_fparams p ≤ i →
      tcpkt_addfloat p v i = p i) ∧
    tc_iparams (tcpkt_addint p w) = tc_iparams p + 1 ∧
    (∀ i, i ≠ 10 → i < 12 + 4 * tc_fparams p + 4 * tc_iparams p ∨
      16 + 4 * tc_fparams p + 4 * tc_iparams p ≤ i →
      tcpkt_addint p w i = p i) :=
  ⟨addfloat_fparams p v (by omega),
   fun i h9 hout => addfloat_frame p v i h9 hout,
   addint_iparams p w (by omega),
   fun i h10 hout => addint_frame p w i h10 hout⟩

/-- Witness for C10 at a concrete packet: one float appended to a fresh
packet bumps the count to 1 and leaves the first seal byte alone. -/
theorem C10_add_frame_witness :
    tc_fparams (tcpkt_addfloat (tcpkt_init (fun _ => 0)) 1069547520)
      = tc_fparams (tcpkt_init (fun _ => 0)) + 1 ∧
    tcpkt_addfloat (tcpkt_init (fun _ => 0)) 1069547520 0
      = tcpkt_init (fun _ => 0) 0 :=
  ⟨(C10_add_frame (tcpkt_init (fun _ => 0)) 1069547520 (-2)
      (by decide) (by decide)).1,
   (C10_add_frame (tcpkt_init (fun _ => 0)) 1069547520 (-2)
      (by decide) (by decide)).2.1 0 (by decide) (by decide)⟩

theorem addfloat_iter_fparams (v : Nat) : ∀ (n : Nat) (p : Packet),
    tc_fparams p + n ≤ 255 →
    tc_fparams ((fun q => tcpkt_addfloat q v)^[n] p) = tc_fparams p + n := by
  intro n
  induction n with
  | zero => intro p _; simp
  | succ m ih =>
    intro p h
    rw [Function.iterate_succ_apply]
    have h1 : tc_fparams p + 1 < 256 := by omega
    rw [ih (tcpkt_addfloat p v) (by rw [addfloat_fparams p v h1]; omega)]
    rw [addfloat_fparams p v h1]
    omega

/-- Counterexample to claim C3: `tcpkt_addfloat` has no size check.  After
30 `add_float` calls on a freshly initialized packet the float count is
30, not 29, and no error was ever reported (the function cannot fail: it
returns `void`). -/
theorem C3_counterexample :
    tc_fparams ((fun q => tcpkt_addfloat q 0)^[30] (tcpkt_init (fun _ => 0)))
      = 30 := by
  rw [addfloat_iter_fparams 0 30 (tcpkt_init (fun _ => 0))
    (by rw [tc_fparams_init]; omega)]
  rw [tc_fparams_init]

/-- Claim C3 as amended: `tcpkt_addfloat` performs no size check and has
no error path; whenever the count byte does not wrap it increments
`tc_fparams` by exactly 1 and stores the 4 bytes of the value at offset
`12 + 4*nfloat`, even when the resulting packet would exceed 128 bytes. -/
theorem C3_amended (p : Packet) (v : Nat) (h : tc_fparams p + 1 < 256) :
    tc_fparams (tcpkt_addfloat p v) = tc_fparams p + 1 ∧
    loadLE 4 (tcpkt_addfloat p v) (12 + 4 * tc_fparams p) = v % 4294967296 :=
  ⟨addfloat_fparams p v h, addfloat_load p v⟩

/-- Witness for the amended C3 at a fresh packet. -/
theorem C3_amended_witness :
    tc_fparams (tcpkt_addfloat (tcpkt_init (fun _ => 0)) 7)
      = tc_fparams (tcpkt_init (fun _ => 0)) + 1 ∧
    loadLE 4 (tcpkt_addfloat (tcpkt_init (fun _ => 0)) 7)
      (12 + 4 * tc_fparams (tcpkt_init (fun _ => 0))) = 7 % 4294967296 :=
  C3_amended (tcpkt_init (fun _ => 0)) 7
    (by rw [tc_fparams_init]; omega)

/-- Counterexample to claim C4: appending a float after an int does not
fail with `ERR_ORDER` and does not leave the buffer unchanged.  On a fresh
packet, `add_int 1` puts byte 1 at offset 12; the out-of-order
`add_float` then overwrites that byte with the low byte `0x44` of the
float's bit pattern. -/
theorem C4_counterexample :
    tcpkt_addint (tcpkt_init (fun _ => 0)) 1 12 = 1 ∧
    tcpkt_addfloat (tcpkt_addint (tcpkt_init (fun _ => 0)) 1) 287454020 12
      = 68 := by
  constructor <;> decide

/-- Claim C4 as amended: the encoder enforces no append order and has no
error path.  An `add_float` on a packet that already holds ints (the
out-of-order case) still stores the value at `12 + 4*nfloat` — which is
inside the int region, silently corrupting it — and still increments
`tc_fparams`. -/
theorem C4_amended (p : Packet) (v : Nat) (hord : tc_iparams p ≠ 0)
    (h : tc_fparams p + 1 < 256) :
    tc_fparams (tcpkt_addfloat p v) = tc_fparams p + 1 ∧
    tcpkt_getfloat (tcpkt_addfloat p v) (tc_fparams p) = v % 4294967296 := by
  refine ⟨addfloat_fparams p v h, ?_⟩
  unfold tcpkt_getfloat
  have harg : TC_HDRSIZE + tc_fparams p * 4 = 12 + 4 * tc_fparams p := by
    unfold TC_HDRSIZE; ring
  rw [harg]
  exact addfloat_load p v

/-- Witness for the amended C4: the out-of-order `add_float` after an
`add_int` on a fresh packet. -/
theorem C4_amended_witness :
    tc_fparams (tcpkt_addfloat (tcpkt_addint (tcpkt_init (fun _ => 0)) 1) 287454020)
      = tc_fparams (tcpkt_addint (tcpkt_init (fun _ => 0)) 1) + 1 ∧
    tcpkt_getfloat (tcpkt_addfloat (tcpkt_addint (tcpkt_init (fun _ => 0)) 1) 287454020)
      (tc_fparams (tcpkt_addint (tcpkt_init (fun _ => 0)) 1))
      = 287454020 % 4294967296 :=
  C4_amended (tcpkt_addint (tcpkt_init (fun _ => 0)) 1) 287454020
    (by decide) (by decide)

/-- Counterexample to claim C6: the accessors do not reject out-of-range
indices.  On a packet with `nfloat = 0` (one int appended, no floats),
`tcpkt_getfloat 0` is out of range, yet it returns the bytes it finds in
the buffer — here the int's bit pattern — instead of an error. -/
theorem C6_counterexample :
    tc_fparams (tcpkt_addint (tcpkt_init (fun _ => 0)) 287454020) = 0 ∧
    tcpkt_getfloat (tcpkt_addint (tcpkt_init (fun _ => 0)) 287454020) 0
      = 287454020 := by
  constructor <;> decide

/-- Claim C6 as amended: the accessors perform no range check.  An
out-of-range index is served like any other: `tcpkt_getfloat` at index
`nfloat + j` returns the raw bytes of the `j`-th integer slot, and
`tcpkt_getint` at index `nint + j` decodes the 4 bytes it finds past the
int region. -/
theorem C6_amended (p : Packet) (j : Nat) :
    tcpkt_getfloat p (tc_fparams p + j)
      = loadLE 4 p (TC_HDRSIZE + 4 * tc_fparams p + 4 * j) ∧
    tcpkt_getint p (tc_iparams p + j) =
      (if loadLE 4 p (TC_HDRSIZE + 4 * tc_fparams p + 4 * tc_iparams p + 4 * j)
          < 2147483648
       then (loadLE 4 p (TC_HDRSIZE + 4 * tc_fparams p + 4 * tc_iparams p + 4 * j) : Int)
       else (loadLE 4 p (TC_HDRSIZE + 4 * tc_fparams p + 4 * tc_iparams p + 4 * j) : Int)
         - 4294967296) := by
  constructor
  · unfold tcpkt_getfloat
    congr 1
    ring
  · unfold tcpkt_getint
    have harg : TC_HDRSIZE + tc_fparams p * 4 + (tc_iparams p + j) * 4
        = TC_HDRSIZE + 4 * tc_fparams p + 4 * tc_iparams p + 4 * j := by ring
    rw [harg]

/-! ### C1: the CRC engine refines the claim's algorithm -/

theorem crcBit_eq_spec (c d : Nat) : crcBit c d = specCrcStep c (d % 2) := by
  unfold crcBit specCrcStep CRC16_POLY
  rw [Nat.and_one_is_mod, Nat.and_one_is_mod, Nat.shiftRight_eq_div_pow, pow_one]
  have h1 : c % 2 < 2 ^ 1 := by rw [pow_one]; omega
  have h2 : d % 2 < 2 ^ 1 := by rw [pow_one]; omega
  have hx : c % 2 ^^^ d % 2 < 2 := by
    have := Nat.xor_lt_two_pow h1 h2
    rw [pow_one] at this
    exact this
  by_cases h : c % 2 ^^^ d % 2 = 1
  · rw [if_pos (by omega), if_pos h]
  · rw [if_neg (by omega), if_neg h]

theorem crcBits_eq_spec : ∀ (n c d : Nat), crcBits c d n = specCrcByte c d n := by
  intro n
  induction n with
  | zero => intro c d; rfl
  | succ m ih =>
    intro c d
    show crcBits (crcBit c d) (d >>> 1) m
      = specCrcByte (specCrcStep c (d % 2)) (d / 2) m
    rw [ih, crcBit_eq_spec, Nat.shiftRight_eq_div_pow, pow_one]

theorem byteStep_eq_spec (c b : Nat) :
    crcBits c (0xff &&& b) 8 = specCrcByte c (b % 256) 8 := by
  have hb : 0xff &&& b = b % 256 := by
    rw [Nat.land_comm]
    have h : (0xff : Nat) = 2 ^ 8 - 1 := by norm_num
    rw [h, Nat.and_pow_two_sub_one_eq_mod]
  rw [crcBits_eq_spec, hb]

theorem crc16_loop_eq_spec : ∀ (data : List Nat) (c : Nat),
    crc16_loop c data = data.foldl (fun r b => specCrcByte r (b % 256) 8) c := by
  intro data
  induction data with
  | nil => intro c; rfl
  | cons b tl ih =>
    intro c
    show crc16_loop (crcBits c (0xff &&& b) 8) tl
      = tl.foldl (fun r b => specCrcByte r (b % 256) 8) (specCrcByte c (b % 256) 8)
    rw [ih, byteStep_eq_spec]

theorem crc16_post_eq (c : Nat) :
    (((0xffffffff ^^^ c) <<< 8) % 4294967296 |||
      (((0xffffffff ^^^ c) >>> 8) &&& 0xff)) % 65536
    = (((c ^^^ 0xffff) <<< 8) ||| (((c ^^^ 0xffff) >>> 8) &&& 0xff)) &&& 0xffff := by
  have h32 : (4294967296 : Nat) = 2 ^ 32 := by norm_num
  have h16 : (65536 : Nat) = 2 ^ 16 := by norm_num
  have hc16 : (0xffff : Nat) = 2 ^ 16 - 1 := by norm_num
  have hc8 : (0xff : Nat) = 2 ^ 8 - 1 := by norm_num
  have hc32 : (0xffffffff : Nat) = 2 ^ 32 - 1 := by norm_num
  rw [h32, h16, hc16, hc8, hc32, Nat.and_pow_two_sub_one_eq_mod]
  apply Nat.eq_of_testBit_eq
  intro i
  simp only [Nat.testBit_mod_two_pow, Nat.testBit_lor, Nat.testBit_land,
    Nat.testBit_shiftLeft, Nat.testBit_shiftRight, Nat.testBit_xor,
    Nat.testBit_two_pow_sub_one]
  by_cases hi : i < 16
  · by_cases h8 : 8 ≤ i
    · have e1 : i - 8 < 32 := by omega
      have e2 : i - 8 < 16 := by omega
      have e3 : ¬ (i < 8) := by omega
      have e4 : 8 + i < 32 := by omega
      have e5 : ¬ (8 + i < 16) := by omega
      have e6 : i < 32 := by omega
      simp [hi, h8, e1, e2, e3, e4, e5, e6]
    · have e1 : ¬ (8 ≤ i) := by omega
      have e2 : i < 8 := by omega
      have e3 : 8 + i < 32 := by omega
      have e4 : 8 + i < 16 := by omega
      simp [hi, e1, e2, e3, e4]
  · simp [hi]

/-- Claim C1: on every nonempty byte sequence the CRC engine computes
exactly the value described by the claim: register from `0xFFFF`, bits
LSB-first with `(register >> 1) XOR 0x8408` on a set feedback bit,
complement after all bytes, final high/low byte swap of the 16-bit
result. -/
theorem C1_crc16_matches_spec (data : List Nat) (h : 0 < data.length) :
    crc16 data = crc16_spec data := by
  unfold crc16 crc16_spec
  rw [if_neg (by omega)]
  rw [crc16_loop_eq_spec]
  exact crc16_post_eq (data.foldl (fun r b => specCrcByte r (b % 256) 8) 0xffff)

/-- Witness for C1 on a concrete two-byte input. -/
theorem C1_crc16_matches_spec_witness :
    crc16 [0x12, 0x34] = crc16_spec [0x12, 0x34] :=
  C1_crc16_matches_spec [0x12, 0x34] (by decide)

/-! ### C2: round-trip of encoding and reading back -/

theorem foldl_addfloat_spec : ∀ (F : List Nat) (p : Packet),
    tc_fparams p + F.length ≤ 255 →
    tc_fparams (F.foldl tcpkt_addfloat p) = tc_fparams p + F.length ∧
    (∀ i, i ≠ 9 →
      (i < 12 + 4 * tc_fparams p ∨ 12 + 4 * tc_fparams p + 4 * F.length ≤ i) →
      F.foldl tcpkt_addfloat p i = p i) ∧
    (∀ j, j < F.length →
      loadLE 4 (F.foldl tcpkt_addfloat p) (12 + 4 * (tc_fparams p + j))
        = F.getD j 0 % 4294967296) := by
  intro F
  induction F with
  | nil =>
    intro p h
    refine ⟨by simp, fun i _ _ => rfl, fun j hj => by simp at hj⟩
  | cons v tl ih =>
    intro p h
    simp only [List.foldl_cons, List.length_cons] at h ⊢
    have hf1 : tc_fparams p + 1 < 256 := by omega
    have hp1 : tc_fparams (tcpkt_addfloat p v) = tc_fparams p + 1 :=
      addfloat_fparams p v hf1
    obtain ⟨ihc, ihf, ihl⟩ := ih (tcpkt_addfloat p v) (by rw [hp1]; omega)
    refine ⟨?_, ?_, ?_⟩
    · rw [ihc, hp1]; omega
    · intro i h9 hout
      rw [ihf i h9 (by rw [hp1]; omega)]
      exact addfloat_frame p v i h9 (by omega)
    · intro j hj
      cases j with
      | zero =>
        rw [loadLE_congr 4 _ (tcpkt_addfloat p v) _
          (fun i h1 h2 => ihf i (by omega) (by rw [hp1]; omega))]
        have ha : 12 + 4 * (tc_fparams p + 0) = 12 + 4 * tc_fparams p := by ring
        rw [ha]
        simpa using addfloat_load p v
      | succ m =>
        have ha : 12 + 4 * (tc_fparams p + (m + 1))
            = 12 + 4 * (tc_fparams (tcpkt_addfloat p v) + m) := by rw [hp1]; ring
        rw [ha, ihl m (by omega)]
        simp

theorem foldl_addint_spec : ∀ (I : List Int) (p : Packet),
    tc_iparams p + I.length ≤ 255 →
    tc_iparams (I.foldl tcpkt_addint p) = tc_iparams p + I.length ∧
    (∀ i, i ≠ 10 →
      (i < 12 + 4 * tc_fparams p + 4 * tc_iparams p ∨
        12 + 4 * tc_fparams p + 4 * tc_iparams p + 4 * I.length ≤ i) →
      I.foldl tcpkt_addint p i = p i) ∧
    (∀ j, j < I.length →
      loadLE 4 (I.foldl tcpkt_addint p)
        (12 + 4 * tc_fparams p + 4 * (tc_iparams p + j))
        = Int.toNat ((I.getD j 0).emod 4294967296)) := by
  intro I
  induction I with
  | nil =>
    intro p h
    refine ⟨by simp, fun i _ _ => rfl, fun j hj => by simp at hj⟩
  | cons v tl ih =>
    intro p h
    simp only [List.foldl_cons, List.length_cons] at h ⊢
    have hi1 : tc_iparams p + 1 < 256 := by omega
    have hp1 : tc_iparams (tcpkt_addint p v) = tc_iparams p + 1 :=
      addint_iparams p v hi1
    have hfp : tc_fparams (tcpkt_addint p v) = tc_fparams p :=
      congrArg (fun x => x % 256)
        (addint_frame p v 9 (by omega) (Or.inl (by omega)))
    obtain ⟨ihc, ihf, ihl⟩ := ih (tcpkt_addint p v) (by rw [hp1]; omega)
    refine ⟨?_, ?_, ?_⟩
    · rw [ihc, hp1]; omega
    · intro i h10 hout
      rw [ihf i h10 (by rw [hp1, hfp]; omega)]
      exact addint_frame p v i h10 (by omega)
    · intro j hj
      have hmod : Int.toNat (v.emod 4294967296) < 4294967296 := by
        have h1 : v.emod 4294967296 < 4294967296 :=
          Int.emod_lt_of_pos v (by norm_num)
        have h2 : 0 ≤ v.emod 4294967296 := Int.emod_nonneg v (by norm_num)
        omega
      cases j with
      | zero =>
        rw [loadLE_congr 4 _ (tcpkt_addint p v) _
          (fun i h1 h2 => ihf i (by omega) (by rw [hp1, hfp]; omega))]
        have ha : 12 + 4 * tc_fparams p + 4 * (tc_iparams p + 0)
            = 12 + 4 * tc_fparams p + 4 * tc_iparams p := by ring
        rw [ha]
        have := addint_load p v
        rw [Nat.mod_eq_of_lt hmod] at this
        simpa using this
      | succ m =>
        have ha : 12 + 4 * tc_fparams p + 4 * (tc_iparams p + (m + 1))
            = 12 + 4 * tc_fparams (tcpkt_addint p v)
              + 4 * (tc_iparams (tcpkt_addint p v) + m) := by rw [hp1, hfp]; ring
        rw [ha, ihl m (by omega)]
        simp

theorem storeBytes_get : ∀ (bs : List Nat) (p : Packet) (off k : Nat),
    k < bs.length → storeBytes p off bs (off + k) = bs.getD k 0 % 256 := by
  intro bs
  induction bs with
  | nil => intro p off k hk; simp at hk
  | cons b tl ih =>
    intro p off k hk
    cases k with
    | zero =>
      show storeBytes (setByte p off b) (off + 1) tl (off + 0) = b % 256
      rw [storeBytes_outside tl (setByte p off b) (off + 1) (off + 0) (by omega)]
      have : off + 0 = off := by omega
      rw [this, setByte_same]
    | succ m =>
      show storeBytes (setByte p off b) (off + 1) tl (off + (m + 1))
        = tl.getD m 0 % 256
      have : off + (m + 1) = (off + 1) + m := by omega
      rw [this, ih (setByte p off b) (off + 1) m (by simp at hk; omega)]

theorem addstring_spec (p : Packet) (s : List Nat)
    (hs : ∀ b ∈ s, b ≠ 0 ∧ b < 256) (hlen : s.length + 1 < 256) :
    tc_sparams (tcpkt_addstring p s) = s.length + 1 ∧
    (∀ i, i ≠ 11 →
      (i < 12 + 4 * tc_fparams p + 4 * tc_iparams p ∨
        12 + 4 * tc_fparams p + 4 * tc_iparams p + s.length + 1 ≤ i) →
      tcpkt_addstring p s i = p i) ∧
    (∀ k, k < s.length → getByte (tcpkt_addstring p s)
        (12 + 4 * tc_fparams p + 4 * tc_iparams p + k) = s.getD k 0) ∧
    getByte (tcpkt_addstring p s)
      (12 + 4 * tc_fparams p + 4 * tc_iparams p + s.length) = 0 := by
  have htw : s.takeWhile (fun b => b % 256 ≠ 0) = s := by
    rw [List.takeWhile_eq_self_iff]
    intro b hb
    have := hs b hb
    simp [Nat.mod_eq_of_lt this.2, this.1]
  have hoff : TC_HDRSIZE + tc_fparams p * 4 + tc_iparams p * 4
      = 12 + 4 * tc_fparams p + 4 * tc_iparams p := by unfold TC_HDRSIZE; ring
  unfold tcpkt_addstring
  rw [htw, hoff]
  refine ⟨?_, ?_, ?_, ?_⟩
  · unfold tc_sparams getByte
    rw [setByte_same]
    omega
  · intro i h11 hout
    rw [setByte_other _ _ _ _ h11, setByte_other _ _ _ _ (by omega)]
    exact storeBytes_outside s p _ i (by omega)
  · intro k hk
    unfold getByte
    rw [setByte_other _ _ _ _ (by omega), setByte_other _ _ _ _ (by omega)]
    have : 12 + 4 * tc_fparams p + 4 * tc_iparams p + k
        = (12 + 4 * tc_fparams p + 4 * tc_iparams p) + k := by ring
    rw [this, storeBytes_get s p _ k hk]
    have hmem : s.getD k 0 ∈ s := by
      rw [List.getD_eq_getElem?_getD, List.getElem?_eq_getElem hk, Option.getD_some]
      exact List.getElem_mem hk
    have hb := hs _ hmem
    omega
  · unfold getByte
    rw [setByte_other _ _ _ _ (by omega), setByte_same]

theorem readCStr_exact : ∀ (s : List Nat) (fuel : Nat) (p : Packet) (off : Nat),
    (∀ k, k < s.length → getByte p (off + k) = s.getD k 0) →
    (∀ b ∈ s, b ≠ 0 ∧ b < 256) →
    getByte p (off + s.length) = 0 →
    s.length < fuel →
    readCStr fuel p off = s := by
  intro s
  induction s with
  | nil =>
    intro fuel p off hbytes hs hterm hfuel
    cases fuel with
    | zero => omega
    | succ m =>
      show (if getByte p off = 0 then [] else _) = []
      rw [if_pos (by simpa using hterm)]
  | cons b tl ih =>
    intro fuel p off hbytes hs hterm hfuel
    cases fuel with
    | zero => simp at hfuel
    | succ m =>
      have hb0 : getByte p off = b := by simpa using hbytes 0 (by simp)
      have hbne : b ≠ 0 := (hs b (by simp)).1
      show (if getByte p off = 0 then [] else getByte p off :: readCStr m p (off + 1))
        = b :: tl
      rw [if_neg (by rw [hb0]; exact hbne), hb0]
      congr 1
      refine ih m p (off + 1) ?_ (fun x hx => hs x (by simp [hx])) ?_ (by simp at hfuel; omega)
      · intro k hk
        have : off + 1 + k = off + (k + 1) := by omega
        rw [this]
        simpa using hbytes (k + 1) (by simp; omega)
      · have : off + 1 + tl.length = off + (b :: tl).length := by simp; omega
        rw [this]
        exact hterm

/-- Modelled from the spec: the source has no `set_cmd` function — callers
assign `pkt->packet.tc_cmd` directly through the union, which §4.3 calls a
direct header field write.  The embedding is that byte store. -/
def tcpkt_set_cmd (p : Packet) (v : Nat) : Packet := setByte p 6 v

/-- Modelled from the spec: `set_seq` is a direct write of `tc_seq`. -/
def tcpkt_set_seq (p : Packet) (v : Nat) : Packet := setByte p 7 v

/-- Modelled from the spec: `set_status` is a direct write of `tc_sts`. -/
def tcpkt_set_sts (p : Packet) (v : Nat) : Packet := setByte p 8 v

/-- The encoding sequence of claim C2 without the optional string:
`init`, the three header setters, all floats, then all ints. -/
def encodeCore (p0 : Packet) (cmd seq sts : Nat) (F : List Nat)
    (I : List Int) : Packet :=
  I.foldl tcpkt_addint (F.foldl tcpkt_addfloat
    (tcpkt_set_sts (tcpkt_set_seq (tcpkt_set_cmd (tcpkt_init p0) cmd) seq) sts))

/-- The full encoding sequence of claim C2: `encodeCore` followed by
`set_string` when a string is present. -/
def buildPacket (p0 : Packet) (cmd seq sts : Nat) (F : List Nat)
    (I : List Int) (S : Option (List Nat)) : Packet :=
  match S with
  | none => encodeCore p0 cmd seq sts F I
  | some s => tcpkt_addstring (encodeCore p0 cmd seq sts F I) s

theorem setHeader_frame (p : Packet) (cmd seq sts i : Nat)
    (h6 : i ≠ 6) (h7 : i ≠ 7) (h8 : i ≠ 8) :
    tcpkt_set_sts (tcpkt_set_seq (tcpkt_set_cmd p cmd) seq) sts i = p i := by
  unfold tcpkt_set_sts tcpkt_set_seq tcpkt_set_cmd
  rw [setByte_other _ _ _ _ h8, setByte_other _ _ _ _ h7, setByte_other _ _ _ _ h6]

theorem encodeCore_spec (p0 : Packet) (cmd seq sts : Nat) (F : List Nat)
    (I : List Int) (hcmd : cmd < 256) (hseq : seq < 256) (hsts : sts < 256)
    (hFlen : F.length ≤ 255) (hIlen : I.length ≤ 255) :
    tc_cmd (encodeCore p0 cmd seq sts F I) = cmd ∧
    tc_seq (encodeCore p0 cmd seq sts F I) = seq ∧
    tc_sts (encodeCore p0 cmd seq sts F I) = sts ∧
    tc_fparams (encodeCore p0 cmd seq sts F I) = F.length ∧
    tc_iparams (encodeCore p0 cmd seq sts F I) = I.length ∧
    tc_sparams (encodeCore p0 cmd seq sts F I) = 0 ∧
    (∀ j, j < F.length →
      loadLE 4 (encodeCore p0 cmd seq sts F I) (12 + 4 * j)
        = F.getD j 0 % 4294967296) ∧
    (∀ j, j < I.length →
      loadLE 4 (encodeCore p0 cmd seq sts F I) (12 + 4 * F.length + 4 * j)
        = Int.toNat ((I.getD j 0).emod 4294967296)) := by
  unfold encodeCore
  have hpH6 : tcpkt_set_sts (tcpkt_set_seq (tcpkt_set_cmd (tcpkt_init p0) cmd) seq) sts 6
      = cmd % 256 := by
    unfold tcpkt_set_sts tcpkt_set_seq tcpkt_set_cmd
    rw [setByte_other _ _ _ _ (by omega), setByte_other _ _ _ _ (by omega), setByte_same]
  have hpH7 : tcpkt_set_sts (tcpkt_set_seq (tcpkt_set_cmd (tcpkt_init p0) cmd) seq) sts 7
      = seq % 256 := by
    unfold tcpkt_set_sts tcpkt_set_seq tcpkt_set_cmd
    rw [setByte_other _ _ _ _ (by omega), setByte_same]
  have hpH8 : tcpkt_set_sts (tcpkt_set_seq (tcpkt_set_cmd (tcpkt_init p0) cmd) seq) sts 8
      = sts % 256 := by
    unfold tcpkt_set_sts
    rw [setByte_same]
  set pH := tcpkt_set_sts (tcpkt_set_seq (tcpkt_set_cmd (tcpkt_init p0) cmd) seq) sts
    with hpH
  have hfH : tc_fparams pH = 0 := by
    unfold tc_fparams getByte
    rw [hpH, setHeader_frame _ _ _ _ 9 (by omega) (by omega) (by omega)]
    exact tc_fparams_init p0
  have hiH : tc_iparams pH = 0 := by
    unfold tc_iparams getByte
    rw [hpH, setHeader_frame _ _ _ _ 10 (by omega) (by omega) (by omega)]
    exact tc_iparams_init p0
  have hsH : tc_sparams pH = 0 := by
    unfold tc_sparams getByte
    rw [hpH, setHeader_frame _ _ _ _ 11 (by omega) (by omega) (by omega)]
    exact tc_sparams_init p0
  obtain ⟨hFc, hFf, hFl⟩ := foldl_addfloat_spec F pH (by rw [hfH]; omega)
  set pF := F.foldl tcpkt_addfloat pH with hpF
  have hfF : tc_fparams pF = F.length := by rw [hFc, hfH]; omega
  have hiF : tc_iparams pF = 0 := by
    unfold tc_iparams getByte
    rw [hFf 10 (by omega) (by rw [hfH]; omega)]
    exact hiH
  have hsF : tc_sparams pF = 0 := by
    unfold tc_sparams getByte
    rw [hFf 11 (by omega) (by rw [hfH]; omega)]
    exact hsH
  obtain ⟨hIc, hIf, hIl⟩ := foldl_addint_spec I pF (by rw [hiF]; omega)
  set pI := I.foldl tcpkt_addint pF with hpI
  have hfI : tc_fparams pI = F.length := by
    unfold tc_fparams getByte
    rw [hIf 9 (by omega) (by omega)]
    exact hfF
  have hiI : tc_iparams pI = I.length := by rw [hIc, hiF]; omega
  have hsI : tc_sparams pI = 0 := by
    unfold tc_sparams getByte
    rw [hIf 11 (by omega) (by omega)]
    exact hsF
  refine ⟨?_, ?_, ?_, hfI, hiI, hsI, ?_, ?_⟩
  · unfold tc_cmd getByte
    rw [hIf 6 (by omega) (by omega), hFf 6 (by omega) (by rw [hfH]; omega), hpH6]
    omega
  · unfold tc_seq getByte
    rw [hIf 7 (by omega) (by omega), hFf 7 (by omega) (by rw [hfH]; omega), hpH7]
    omega
  · unfold tc_sts getByte
    rw [hIf 8 (by omega) (by omega), hFf 8 (by omega) (by rw [hfH]; omega), hpH8]
    omega
  · intro j hj
    rw [loadLE_congr 4 pI pF (12 + 4 * j)
      (fun i h1 h2 => hIf i (by omega) (by rw [hfF, hiF]; omega))]
    have ha : 12 + 4 * j = 12 + 4 * (tc_fparams pH + j) := by rw [hfH]; ring
    rw [ha]
    exact hFl j hj
  · intro j hj
    have ha : 12 + 4 * F.length + 4 * j
        = 12 + 4 * tc_fparams pF + 4 * (tc_iparams pF + j) := by
      rw [hfF, hiF]; ring
    rw [ha]
    exact hIl j hj

theorem getD_mem {α : Type} (l : List α) (j : Nat) (d : α) (hj : j < l.length) :
    l.getD j d ∈ l := by
  rw [List.getD_eq_getElem?_getD, List.getElem?_eq_getElem hj, Option.getD_some]
  exact List.getElem_mem hj

theorem int32_decode (v : Int) (h1 : -2147483648 ≤ v) (h2 : v < 2147483648) :
    (if Int.toNat (v.emod 4294967296) < 2147483648
     then (Int.toNat (v.emod 4294967296) : Int)
     else (Int.toNat (v.emod 4294967296) : Int) - 4294967296) = v := by
  have e0 : 0 ≤ v.emod 4294967296 := Int.emod_nonneg v (by norm_num)
  have e1 : v.emod 4294967296 < 4294967296 := Int.emod_lt_of_pos v (by norm_num)
  have e2 : (Int.toNat (v.emod 4294967296) : Int) = v.emod 4294967296 :=
    Int.toNat_of_nonneg e0
  have hval : v.emod 4294967296 = v ∨ v.emod 4294967296 = v + 4294967296 := by
    by_cases hv : 0 ≤ v
    · left
      exact Int.emod_eq_of_lt hv (by omega)
    · right
      have e : (v + 4294967296 * 1) % 4294967296 = v % 4294967296 :=
        Int.add_mul_emod_self_left v 4294967296 1
      show v % 4294967296 = v + 4294967296
      rw [← e, Int.emod_eq_of_lt (by omega) (by omega)]
      ring
  rcases hval with h | h <;> split <;> omega

/-- Claim C2: for floats `F` (as binary32 bit patterns), ints `I` and an
optional NUL-free string `S` fitting the 116-byte tail, encoding with
`init`, the header setters, `add_float` for each float, `add_int` for
each int and then `set_string`, yields a packet from which `getfloat`
returns each float bit-for-bit, `getint` each int, `getstring` the
string, and the cmd, seq and sts bytes hold the values that were set. -/
theorem C2_roundtrip (p0 : Packet) (cmd seq sts : Nat) (F : List Nat)
    (I : List Int) (S : Option (List Nat))
    (hcmd : cmd < 256) (hseq : seq < 256) (hsts : sts < 256)
    (hF : ∀ v ∈ F, v < 4294967296)
    (hI : ∀ v ∈ I, -2147483648 ≤ v ∧ v < 2147483648)
    (hS : ∀ s, S = some s → ∀ b ∈ s, b ≠ 0 ∧ b < 256)
    (hsize : 4 * F.length + 4 * I.length +
      (match S with | some s => s.length + 1 | none => 0) ≤ 116) :
    tc_cmd (buildPacket p0 cmd seq sts F I S) = cmd ∧
    tc_seq (buildPacket p0 cmd seq sts F I S) = seq ∧
    tc_sts (buildPacket p0 cmd seq sts F I S) = sts ∧
    (∀ j, j < F.length →
      tcpkt_getfloat (buildPacket p0 cmd seq sts F I S) j = F.getD j 0) ∧
    (∀ j, j < I.length →
      tcpkt_getint (buildPacket p0 cmd seq sts F I S) j = I.getD j 0) ∧
    (∀ s, S = some s → tcpkt_getstring (buildPacket p0 cmd seq sts F I S) = s) := by
  cases S with
  | none =>
    have hsz : 4 * F.length + 4 * I.length ≤ 116 := by simpa using hsize
    obtain ⟨hc, hq, ht, hf, hi2, hs2, hFl, hIl⟩ :=
      encodeCore_spec p0 cmd seq sts F I hcmd hseq hsts (by omega) (by omega)
    simp only [buildPacket]
    refine ⟨hc, hq, ht, ?_, ?_, fun s hco => Option.noConfusion hco⟩
    · intro j hj
      unfold tcpkt_getfloat
      have ha : TC_HDRSIZE + j * 4 = 12 + 4 * j := by unfold TC_HDRSIZE; ring
      rw [ha, hFl j hj]
      exact Nat.mod_eq_of_lt (hF _ (getD_mem F j 0 hj))
    · intro j hj
      simp only [tcpkt_getint]
      have ha : TC_HDRSIZE + tc_fparams (encodeCore p0 cmd seq sts F I) * 4 + j * 4
          = 12 + 4 * F.length + 4 * j := by rw [hf]; unfold TC_HDRSIZE; ring
      rw [ha, hIl j hj]
      exact int32_decode (I.getD j 0) (hI _ (getD_mem I j 0 hj)).1
        (hI _ (getD_mem I j 0 hj)).2
  | some s =>
    have hs1 : ∀ b ∈ s, b ≠ 0 ∧ b < 256 := hS s rfl
    have hsz : 4 * F.length + 4 * I.length + (s.length + 1) ≤ 116 := by
      simpa using hsize
    obtain ⟨hc, hq, ht, hf, hi2, hs2, hFl, hIl⟩ :=
      encodeCore_spec p0 cmd seq sts F I hcmd hseq hsts (by omega) (by omega)
    obtain ⟨hSc, hSf, hSb, hSt⟩ :=
      addstring_spec (encodeCore p0 cmd seq sts F I) s hs1 (by omega)
    rw [hf, hi2] at hSf hSb hSt
    simp only [buildPacket]
    refine ⟨?_, ?_, ?_, ?_, ?_, ?_⟩
    · unfold tc_cmd getByte
      rw [hSf 6 (by omega) (Or.inl (by omega))]
      exact hc
    · unfold tc_seq getByte
      rw [hSf 7 (by omega) (Or.inl (by omega))]
      exact hq
    · unfold tc_sts getByte
      rw [hSf 8 (by omega) (Or.inl (by omega))]
      exact ht
    · intro j hj
      unfold tcpkt_getfloat
      have ha : TC_HDRSIZE + j * 4 = 12 + 4 * j := by unfold TC_HDRSIZE; ring
      rw [ha]
      rw [loadLE_congr 4 _ (encodeCore p0 cmd seq sts F I) (12 + 4 * j)
        (fun i h1 h2 => hSf i (by omega) (Or.inl (by omega)))]
      rw [hFl j hj]
      exact Nat.mod_eq_of_lt (hF _ (getD_mem F j 0 hj))
    · intro j hj
      simp only [tcpkt_getint]
      have hfS : tc_fparams (tcpkt_addstring (encodeCore p0 cmd seq sts F I) s)
          = F.length := by
        unfold tc_fparams getByte
        rw [hSf 9 (by omega) (Or.inl (by omega))]
        exact hf
      have ha : TC_HDRSIZE
          + tc_fparams (tcpkt_addstring (encodeCore p0 cmd seq sts F I) s) * 4
          + j * 4 = 12 + 4 * F.length + 4 * j := by
        rw [hfS]; unfold TC_HDRSIZE; ring
      rw [ha]
      rw [loadLE_congr 4 _ (encodeCore p0 cmd seq sts F I) (12 + 4 * F.length + 4 * j)
        (fun i h1 h2 => hSf i (by omega) (Or.inl (by omega)))]
      rw [hIl j hj]
      exact int32_decode (I.getD j 0) (hI _ (getD_mem I j 0 hj)).1
        (hI _ (getD_mem I j 0 hj)).2
    · intro t hts
      cases hts
      unfold tcpkt_getstring
      have hfS : tc_fparams (tcpkt_addstring (encodeCore p0 cmd seq sts F I) s)
          = F.length := by
        unfold tc_fparams getByte
        rw [hSf 9 (by omega) (Or.inl (by omega))]
        exact hf
      have hiS : tc_iparams (tcpkt_addstring (encodeCore p0 cmd seq sts F I) s)
          = I.length := by
        unfold tc_iparams getByte
        rw [hSf 10 (by omega) (Or.inl (by omega))]
        exact hi2
      have ha : TC_HDRSIZE
          + tc_fparams (tcpkt_addstring (encodeCore p0 cmd seq sts F I) s) * 4
          + tc_iparams (tcpkt_addstring (encodeCore p0 cmd seq sts F I) s) * 4
          = 12 + 4 * F.length + 4 * I.length := by
        rw [hfS, hiS]; unfold TC_HDRSIZE; ring
      rw [ha]
      refine readCStr_exact s TC_MAXLEN _ (12 + 4 * F.length + 4 * I.length)
        ?_ hs1 ?_ ?_
      · intro k hk
        exact hSb k hk
      · exact hSt
      · unfold TC_MAXLEN; omega

/-- Witness for C2: one float, one int and a 3-byte string round-trip
through a concrete packet. -/
theorem C2_roundtrip_witness :
    tc_cmd (buildPacket (fun _ => 0) 13 3 0 [1069547520] [-5]
      (some [118, 101, 108])) = 13 ∧
    tcpkt_getfloat (buildPacket (fun _ => 0) 13 3 0 [1069547520] [-5]
      (some [118, 101, 108])) 0 = 1069547520 ∧
    tcpkt_getint (buildPacket (fun _ => 0) 13 3 0 [1069547520] [-5]
      (some [118, 101, 108])) 0 = -5 ∧
    tcpkt_getstring (buildPacket (fun _ => 0) 13 3 0 [1069547520] [-5]
      (some [118, 101, 108])) = [118, 101, 108] := by
  have h := C2_roundtrip (fun _ => 0) 13 3 0 [1069547520] [-5]
    (some [118, 101, 108]) (by decide) (by decide) (by decide) (by decide)
    (by decide) (by intro s hs; cases hs; decide) (by decide)
  exact ⟨h.1, h.2.2.2.1 0 (by decide), h.2.2.2.2.1 0 (by decide),
    h.2.2.2.2.2 _ rfl⟩

/-! ### C5: the decoder, modelled from the spec -/

/-- Modelled from the spec: the repository header contains no decoder, so
the decode error kinds are taken from §4.4 and §7 of the spec. -/
inductive ParseError where
  | ERR_SHORT
  | ERR_SEAL
  | ERR_LENGTH
  | ERR_STRING
  | ERR_CRC
  deriving DecidableEq

/-- Modelled from the spec: the view a successful `parse` returns — the
header fields and counts read from the borrowed input bytes (§4.4). -/
structure TcView where
  cmd : Nat
  seq : Nat
  sts : Nat
  nfloat : Nat
  nint : Nat
  nstr : Nat
  deriving DecidableEq

/-- Read byte `i` of a raw byte slice (out-of-range reads are irrelevant
after the length gates; masked to a byte as on the wire). -/
def byteAt (bs : List Nat) (i : Nat) : Nat := bs.getD i 0 % 256

/-- Modelled from the spec: `parse` (§4.4).  The validation gates in the
spec's order: minimum length, seal, declared total length, string
termination, then CRC computed over the first `total` bytes with the crc
field's positions 4 and 5 read as zero; the input is never mutated (the
zeroing happens on a copy) and a view of the header fields is returned. -/
def parse (bs : List Nat) : Except ParseError TcView :=
  if bs.length < 12 then .error .ERR_SHORT
  else if ¬(byteAt bs 0 = 0xA1 ∧ byteAt bs 1 = 0x55 ∧
      byteAt bs 2 = 0xBB ∧ byteAt bs 3 = 0xA2) then .error .ERR_SEAL
  else if ¬(12 + 4 * byteAt bs 9 + 4 * byteAt bs 10 + byteAt bs 11 ≤ 128 ∧
      12 + 4 * byteAt bs 9 + 4 * byteAt bs 10 + byteAt bs 11 ≤ bs.length) then
    .error .ERR_LENGTH
  else if 0 < byteAt bs 11 ∧
      byteAt bs (12 + 4 * byteAt bs 9 + 4 * byteAt bs 10 + byteAt bs 11 - 1) ≠ 0
    then .error .ERR_STRING
  else if crc16 (((bs.take
        (12 + 4 * byteAt bs 9 + 4 * byteAt bs 10 + byteAt bs 11)).set 4 0).set 5 0)
      ≠ byteAt bs 4 + 256 * byteAt bs 5 then .error .ERR_CRC
  else .ok ⟨byteAt bs 6, byteAt bs 7, byteAt bs 8,
    byteAt bs 9, byteAt bs 10, byteAt bs 11⟩

/-- Claim C5: `parse` applies its gates in order and stops at the first
failure — length below 12 gives `ERR_SHORT`; then a wrong seal gives
`ERR_SEAL`; then a declared total over 128 or over the slice length gives
`ERR_LENGTH`; then a declared string region not ending in a zero byte
gives `ERR_STRING`; then a CRC mismatch against the little-endian stored
crc gives `ERR_CRC`; and only with every gate passed does it return the
view of the header fields, the input untouched. -/
theorem C5_parse_gates (bs : List Nat) :
    (bs.length < 12 → parse bs = .error .ERR_SHORT) ∧
    (¬ bs.length < 12 →
      ¬(byteAt bs 0 = 0xA1 ∧ byteAt bs 1 = 0x55 ∧
        byteAt bs 2 = 0xBB ∧ byteAt bs 3 = 0xA2) →
      parse bs = .error .ERR_SEAL) ∧
    (¬ bs.length < 12 →
      (byteAt bs 0 = 0xA1 ∧ byteAt bs 1 = 0x55 ∧
        byteAt bs 2 = 0xBB ∧ byteAt bs 3 = 0xA2) →
      ¬(12 + 4 * byteAt bs 9 + 4 * byteAt bs 10 + byteAt bs 11 ≤ 128 ∧
        12 + 4 * byteAt bs 9 + 4 * byteAt bs 10 + byteAt bs 11 ≤ bs.length) →
      parse bs = .error .ERR_LENGTH) ∧
    (¬ bs.length < 12 →
      (byteAt bs 0 = 0xA1 ∧ byteAt bs 1 = 0x55 ∧
        byteAt bs 2 = 0xBB ∧ byteAt bs 3 = 0xA2) →
      (12 + 4 * byteAt bs 9 + 4 * byteAt bs 10 + byteAt bs 11 ≤ 128 ∧
        12 + 4 * byteAt bs 9 + 4 * byteAt bs 10 + byteAt bs 11 ≤ bs.length) →
      (0 < byteAt bs 11 ∧
        byteAt bs (12 + 4 * byteAt bs 9 + 4 * byteAt bs 10 + byteAt bs 11 - 1) ≠ 0) →
      parse bs = .error .ERR_STRING) ∧
    (¬ bs.length < 12 →
      (byteAt bs 0 = 0xA1 ∧ byteAt bs 1 = 0x55 ∧
        byteAt bs 2 = 0xBB ∧ byteAt bs 3 = 0xA2) →
      (12 + 4 * byteAt bs 9 + 4 * byteAt bs 10 + byteAt bs 11 ≤ 128 ∧
        12 + 4 * byteAt bs 9 + 4 * byteAt bs 10 + byteAt bs 11 ≤ bs.length) →
      ¬(0 < byteAt bs 11 ∧
        byteAt bs (12 + 4 * byteAt bs 9 + 4 * byteAt bs 10 + byteAt bs 11 - 1) ≠ 0) →
      crc16 (((bs.take
          (12 + 4 * byteAt bs 9 + 4 * byteAt bs 10 + byteAt bs 11)).set 4 0).set 5 0)
        ≠ byteAt bs 4 + 256 * byteAt bs 5 →
      parse bs = .error .ERR_CRC) ∧
    (¬ bs.length < 12 →
      (byteAt bs 0 = 0xA1 ∧ byteAt bs 1 = 0x55 ∧
        byteAt bs 2 = 0xBB ∧ byteAt bs 3 = 0xA2) →
      (12 + 4 * byteAt bs 9 + 4 * byteAt bs 10 + byteAt bs 11 ≤ 128 ∧
        12 + 4 * byteAt bs 9 + 4 * byteAt bs 10 + byteAt bs 11 ≤ bs.length) →
      ¬(0 < byteAt bs 11 ∧
        byteAt bs (12 + 4 * byteAt bs 9 + 4 * byteAt bs 10 + byteAt bs 11 - 1) ≠ 0) →
      crc16 (((bs.take
          (12 + 4 * byteAt bs 9 + 4 * byteAt bs 10 + byteAt bs 11)).set 4 0).set 5 0)
        = byteAt bs 4 + 256 * byteAt bs 5 →
      parse bs = .ok ⟨byteAt bs 6, byteAt bs 7, byteAt bs 8,
        byteAt bs 9, byteAt bs 10, byteAt bs 11⟩) := by
  refine ⟨?_, ?_, ?_, ?_, ?_, ?_⟩
  · intro h1
    unfold parse
    rw [if_pos h1]
  · intro h1 h2
    unfold parse
    rw [if_neg h1, if_pos h2]
  · intro h1 h2 h3
    unfold parse
    rw [if_neg h1, if_neg (not_not_intro h2), if_pos h3]
  · intro h1 h2 h3 h4
    unfold parse
    rw [if_neg h1, if_neg (not_not_intro h2), if_neg (not_not_intro h3), if_pos h4]
  · intro h1 h2 h3 h4 h5
    unfold parse
    rw [if_neg h1, if_neg (not_not_intro h2), if_neg (not_not_intro h3),
      if_neg h4, if_pos h5]
  · intro h1 h2 h3 h4 h5
    unfold parse
    rw [if_neg h1, if_neg (not_not_intro h2), if_neg (not_not_intro h3),
      if_neg h4, if_neg (not_not_intro h5)]

set_option maxRecDepth 8192 in
/-- Witness for C5: a concrete 12-byte empty-tail packet with a correct
CRC parses to the expected view, and a too-short slice is rejected. -/
theorem C5_parse_gates_witness :
    parse [161, 85, 187, 162, 190, 58, 0, 0, 0, 0, 0, 0]
      = .ok ⟨0, 0, 0, 0, 0, 0⟩ ∧
    parse [161, 85] = .error .ERR_SHORT :=
  ⟨(C5_parse_gates [161, 85, 187, 162, 190, 58, 0, 0, 0, 0, 0, 0]).2.2.2.2.2
      (by decide) (by decide) (by decide) (by decide) (by decide),
   (C5_parse_gates [161, 85]).1 (by decide)⟩
